import Mathlib

/-!
Verification of the interpolated binary-search controller of ab-av1
(files `src/command/bitrate_search.rs` and `src/command/cq_search.rs`).

The embedding models the Rust `f32`/`f64` arithmetic over `ℚ` (the claims
under study are about the exact control flow, comparisons and rational
interpolation formulas, none of which hinge on rounding of binary floating
point), except for the `Transform` round-trip property, which is stated
over `ℝ` because the Sqrt and Ln transforms use `sqrt`/`exp`/`log`.

Rust panics (a failed `assert!` or `f64::clamp` with `min > max`) are
modelled as `Option.none` at the function level and as a dedicated
`panicked` outcome at the controller level, since a panic aborts the
search without producing a value.
-/

/- The Batteries rational-number operations are marked irreducible, which
blocks `decide` from evaluating concrete runs of the model; re-allow
unfolding (the kernel ignores reducibility settings, so this only affects
elaboration). -/
unseal Rat.add Rat.mul Rat.inv Rat.sub Rat.ofScientific

namespace AbAv1

/-- Oracle measurement for one sample encode.  Modelled from the spec:
the `sample_encode` module is not part of the sources under study; per the
spec (section 6) its output carries an achieved quality score
(`vmaf`) and an achieved size ratio (`encode_percent`), which are the only
fields the search controller's control flow reads
(`sample.enc.vmaf`, `sample.enc.encode_percent`).  The remaining fields
(predicted size/time, cache flag) do not influence the controller. -/
structure EncOutput where
  vmaf : ℚ
  encode_percent : ℚ
  deriving DecidableEq, Repr

/-- The `Transform` enum of both search files: `Linear`, `Sqrt`, `Ln`. -/
inductive Transform
  | Linear
  | Sqrt
  | Ln
  deriving DecidableEq, Repr

/-- Forward map `TransformValue::calc` (value to search coordinate):
Linear is the identity, Sqrt squares (`powi(2)`), Ln exponentiates. -/
noncomputable def TransformValue.calc : Transform → ℝ → ℝ
  | .Linear => fun v => v
  | .Sqrt => fun v => v ^ 2
  | .Ln => fun v => Real.exp v

/-- Inverse map `TransformValue::inverse` (search coordinate to value):
Linear is the identity, Sqrt takes the square root, Ln the logarithm. -/
noncomputable def TransformValue.inverse : Transform → ℝ → ℝ
  | .Linear => fun v => v
  | .Sqrt => Real.sqrt
  | .Ln => Real.log

/-- Domain on which each transform's forward map is invertible: `Sqrt`
squares, so recovering the value by `sqrt` needs a nonnegative input;
`Linear` and `Ln` (exp followed by log) are invertible everywhere. -/
def TransformValue.validDomain : Transform → ℝ → Prop
  | .Linear => fun _ => True
  | .Sqrt => fun v => 0 ≤ v
  | .Ln => fun _ => True

/-- Rust `f64::clamp(self, min, max)`: panics (here `none`) when
`min > max`, otherwise bounds the value into `[min, max]`. -/
def rustClamp (x lo hi : ℚ) : Option ℚ :=
  if lo ≤ hi then some (if x < lo then lo else if hi < x then hi else x) else none

/-- Rust `f32::round`: rounds half away from zero. -/
def rustRound (x : ℚ) : ℤ :=
  if 0 ≤ x then ⌊x + 1 / 2⌋ else -⌊-x + 1 / 2⌋

/-- Rust `as u32` cast from a float: truncates toward zero and saturates
at the ends of the `u32` range (negative inputs give 0). -/
def ratAsU32 (x : ℚ) : ℕ :=
  min ⌊x⌋.toNat (2 ^ 32 - 1)

/-- Trial-value derivation `Sample::num_from_q` of `bitrate_search.rs`:
`inverse(q)` cast to `u32`, then quantized DOWN by integer division
(`(val / inc) * inc`).  The inverse map is passed as a rational function;
the bitrate search instantiates the transform with `Linear`
(identity). -/
def brNumFromQ (inv : ℚ → ℚ) (q : ℚ) (inc : ℕ) : ℕ :=
  let val := ratAsU32 (inv q)
  val / inc * inc

/-- Trial-value derivation `Sample::num_from_q` of `cq_search.rs`:
`inverse(q)` cast to `f32`, then quantized to the NEAREST multiple via
`(val / inc).round() * inc`. -/
def cqNumFromQ (inv : ℚ → ℚ) (q : ℚ) (inc : ℚ) : ℚ :=
  let val := inv q
  (rustRound (val / inc) : ℚ) * inc

/-- Interpolation body of `Sample::vmaf_lerp_q` (identical in both search
files).  Arguments are the target `min_vmaf`, the worse pair
`(worse_q, worse_vmaf)` and the better pair `(better_q, better_vmaf)`
after the `Option` resolution done by the caller.  The `assert!` and the
possible `clamp` panic are modelled as `none`. -/
def vmafLerpQ (minVmaf wq wv bq bv : ℚ) : Option ℚ :=
  if wv ≤ minVmaf ∧ wv < bv ∧ wq < bq then
    let lerp := (wq * (bv - minVmaf) + bq * (minVmaf - wv)) / (bv - wv)
    rustClamp lerp (wq + 1) (bq - 1)
  else
    none

/-- Progress-bar length `BAR_LEN` (both search files). -/
def BAR_LEN : ℚ := 1000000000

/-- Heuristic `guess_progress(run, sample_progress, thorough)` of both
search files: guesses a total run count (6 while thorough and `run < 7`,
else 4 while `run < 5`, else the current run) and scales into bar
units. -/
def guessProgress (run : ℕ) (sampleProgress : ℚ) (thorough : Bool) : ℚ :=
  let totalRunsGuess : ℚ :=
    if thorough ∧ run < 7 then 6
    else if run < 5 then 4
    else (run : ℚ)
  ((run : ℚ) - 1 + sampleProgress) * BAR_LEN / totalRunsGuess

/-- Per-iteration vmaf overshoot tolerance computed at the top of the
search loop: `0.05` in thorough mode, otherwise
`max (increment * 2^(run-1) * 0.1) 0.1`. -/
def higherTolerance (inc : ℚ) (thorough : Bool) (run : ℕ) : ℚ :=
  if thorough then 1 / 20
  else max (inc * 2 ^ (run - 1) * (1 / 10)) (1 / 10)

section Controller

variable {V : Type}

/-- Static configuration of one search invocation, already converted to
search-coordinate space: `min_q = calc(min_value)`, `max_q = calc(max_value)`
(for the bitrate search the transform is `Linear`, so these equal the
bitrate bounds).  `inc` is the quantization increment (used by the
tolerance schedule), `minVmaf`/`maxEncodedPercent` the two constraints. -/
structure Cfg where
  minVmaf : ℚ
  maxEncodedPercent : ℚ
  minQ : ℚ
  maxQ : ℚ
  inc : ℚ
  thorough : Bool
  deriving DecidableEq, Repr

/-- One entry of the `br_attempts`/`cq_attempts` history: the cloned
`Sample` as of the oracle call — its search coordinate `q`, trial value
`val` and the oracle measurement `enc`. -/
structure Attempt (V : Type) where
  q : ℚ
  val : V
  enc : EncOutput
  deriving DecidableEq, Repr

/-- The live search cursor (`Sample` minus the configuration constants):
current coordinate `q`, current trial value `val`, the `prev` pair kept by
`val_to_prev`, plus the loop counter `run` and the attempt history, which
in the Rust code live in the `run` function's frame. -/
structure SearchState (V : Type) where
  q : ℚ
  val : V
  prev : V × ℚ
  attempts : List (Attempt V)
  run : ℕ
  deriving DecidableEq, Repr

/-- Terminal result of one loop iteration.  `ok` is `return Ok(..)` (the
returned sample snapshot), `noGood` is the `ensure_or_no_good_*!` macro
firing — modelled from the spec: the macro (in the `err` submodule, not
among the sources) returns the classified no-viable-value failure carrying
the current `Sample`.  `panicked` is a Rust panic: the `assert!` in
`vmaf_lerp_q` or a `clamp` call with `min > max`. -/
inductive IterEnd (V : Type)
  | ok (a : Attempt V)
  | noGood (a : Attempt V)
  | panicked
  deriving DecidableEq, Repr

/-- Overall outcome of `run`: a terminal iteration result, the
`ensure_other!` configuration rejection, an oracle error propagated by
`sample_task??`, or fuel exhaustion (an artifact of the shallow embedding;
the termination theorem shows enough fuel always exists). -/
inductive Outcome (V : Type)
  | ok (a : Attempt V)
  | noGood (a : Attempt V)
  | panicked
  | invalidCfg
  | oracleErr
  | fuelOut
  deriving DecidableEq, Repr

/-- Embeds a terminal iteration result into an overall outcome. -/
def IterEnd.toOutcome : IterEnd V → Outcome V
  | .ok a => .ok a
  | .noGood a => .noGood a
  | .panicked => .panicked

/-- Result of one loop iteration: terminate, or continue in a new state. -/
inductive StepRes (V : Type)
  | done (e : IterEnd V)
  | next (st : SearchState V)
  deriving DecidableEq, Repr

/-- The `l_bound` computation: among prior attempts with a strictly lower
`q` than the current sample, the one with maximal `q`
(`filter(|s| s.q < sample.q).max_by_key(|s| OrderedFloat(s.q))`). -/
def lBound (l : List (Attempt V)) (q : ℚ) : Option (Attempt V) :=
  (l.filter fun a => decide (a.q < q)).argmax (·.q)

/-- The `u_bound` computation: among prior attempts with a strictly higher
`q`, the one with minimal `q`. -/
def uBound (l : List (Attempt V)) (q : ℚ) : Option (Attempt V) :=
  (l.filter fun a => decide (q < a.q)).argmin (·.q)

/-- `Sample::set_q` followed by the loop's advance to the next iteration:
pushes the evaluated `(val, q)` pair into `prev`, sets the new coordinate
and re-derives the trial value by `num_from_q`. -/
def setQ (nfq : ℚ → V) (st : SearchState V) (attempts' : List (Attempt V))
    (q' : ℚ) : SearchState V :=
  { q := q'
    val := nfq q'
    prev := (st.val, st.q)
    attempts := attempts'
    run := st.run + 1 }

/-- One iteration of the search loop shared verbatim by
`bitrate_search::run` and `cq_search::run`, from the point where the
oracle measurement `resp` has been stored into `sample.enc`.  `nfq` is
the `num_from_q` trial-value derivation (the only point where the two
files differ, besides the transform baked into it). -/
def searchStep (cfg : Cfg) (nfq : ℚ → V) (st : SearchState V)
    (resp : EncOutput) : StepRes V :=
  let tol := higherTolerance cfg.inc cfg.thorough st.run
  let cur : Attempt V := ⟨st.q, st.val, resp⟩
  let attempts' := st.attempts ++ [cur]
  let small := resp.encode_percent ≤ cfg.maxEncodedPercent
  if resp.vmaf > cfg.minVmaf then
    -- Good Enough
    if small ∧ resp.vmaf < cfg.minVmaf + tol then .done (.ok cur)
    else
      match lBound attempts' st.q with
      | some lower =>
        if lower.q = st.q + 1 then
          if small then .done (.ok cur) else .done (.noGood cur)
        else
          match vmafLerpQ cfg.minVmaf lower.q lower.enc.vmaf st.q resp.vmaf with
          | some q' => .next (setQ nfq st attempts' q')
          | none => .done .panicked
      | none =>
        if st.q = cfg.minQ then
          if small then .done (.ok cur) else .done (.noGood cur)
        else if st.run = 1 ∧ st.q + 1 < cfg.minQ then
          .next (setQ nfq st attempts' ((st.q + cfg.minQ) / 2))
        else .next (setQ nfq st attempts' cfg.minQ)
  else
    -- Not Good Enough
    if ¬small ∨ st.q = cfg.maxQ then .done (.noGood cur)
    else
      match uBound attempts' st.q with
      | some upper =>
        if upper.q - 1 = st.q then
          if upper.enc.encode_percent ≤ cfg.maxEncodedPercent then
            .done (.ok upper)
          else .done (.noGood cur)
        else
          match vmafLerpQ cfg.minVmaf st.q resp.vmaf upper.q upper.enc.vmaf with
          | some q' => .next (setQ nfq st attempts' q')
          | none => .done .panicked
      | none =>
        if st.run = 1 ∧ st.q > cfg.maxQ + 1 then
          .next (setQ nfq st attempts' ((cfg.maxQ + st.q) / 2))
        else .next (setQ nfq st attempts' cfg.maxQ)

/-- Snapshot of the cursor at the moment an oracle call is issued: the
iteration number and the trial `(q, val)` passed to the oracle via
`args.args.bitrate = Some(sample.val)` / `args.args.quality`. -/
structure CallRec (V : Type) where
  idx : ℕ
  q : ℚ
  val : V
  deriving DecidableEq, Repr

/-- The search loop (`for run in 1..`) with explicit fuel.  The oracle is
a function from the iteration number to `none` (the sample pipeline
errored; `sample_task??` propagates it) or a measurement.  Returns the
outcome together with the list of oracle calls issued, in order. -/
def searchRun (cfg : Cfg) (nfq : ℚ → V) (oracle : ℕ → Option EncOutput) :
    ℕ → SearchState V → Outcome V × List (CallRec V)
  | 0, _ => (.fuelOut, [])
  | fuel + 1, st =>
    let rec_ : CallRec V := ⟨st.run, st.q, st.val⟩
    match oracle st.run with
    | none => (.oracleErr, [rec_])
    | some resp =>
      match searchStep cfg nfq st resp with
      | .done e => (e.toOutcome, [rec_])
      | .next st' =>
        let p := searchRun cfg nfq oracle fuel st'
        (p.1, rec_ :: p.2)

/-- Initial cursor built by `Sample::new`: `q` is the midpoint of the
transformed bounds and the trial value comes from `num_from_q`. -/
def initState (nfq : ℚ → V) (minQ maxQ : ℚ) : SearchState V :=
  let q := (minQ + maxQ) / 2
  { q := q
    val := nfq q
    prev := (nfq q, q)
    attempts := []
    run := 1 }

end Controller

/-- The `Sample::new` of `bitrate_search.rs` as invoked by `run`: the
transform is `Transform::Linear` (identity on `ℚ`), so
`min_q = min_br`, `max_q = max_br`, `q = (min_q + max_q) / 2`, and the
initial trial value is `num_from_q(q, br_increment)`. -/
def brSampleNew (minBr maxBr inc : ℕ) : SearchState ℕ :=
  initState (brNumFromQ (fun v => v) · inc) (minBr : ℚ) (maxBr : ℚ)

/-- Top level of `bitrate_search::run`: validates the bounds
(`ensure_other!(min_br < max_br)`), coerces the increment with
`.max(1)`, builds the initial `Sample` with the `Linear` transform and
enters the loop. -/
def bitrateSearchRun (minVmaf maxEncodedPercent : ℚ) (minBr maxBr inc0 : ℕ)
    (thorough : Bool) (oracle : ℕ → Option EncOutput) (fuel : ℕ) :
    Outcome ℕ × List (CallRec ℕ) :=
  if minBr < maxBr then
    let inc := max inc0 1
    let cfg : Cfg :=
      { minVmaf := minVmaf
        maxEncodedPercent := maxEncodedPercent
        minQ := (minBr : ℚ)
        maxQ := (maxBr : ℚ)
        inc := (inc : ℚ)
        thorough := thorough }
    searchRun cfg (brNumFromQ (fun v => v) · inc) oracle fuel
      (brSampleNew minBr maxBr inc)
  else (.invalidCfg, [])

section OracleExamples

/-- Oracle that accepts immediately: vmaf 95.05 (just above target),
size 50%. -/
def accOracle : ℕ → Option EncOutput := fun _ => some ⟨95 + 1 / 20, 50⟩

/-- Oracle whose first measurement is good but far above target
(vmaf 110), and which errors on the second call. -/
def errOracle : ℕ → Option EncOutput :=
  fun i => if i = 1 then some ⟨110, 50⟩ else none

/-- Adversarial oracle: vmaf exactly 95 (never strictly above the target)
except at the second call, where it is astronomically high so that the
interpolation keeps returning the worse coordinate and the clamp advances
the search by exactly one `q` unit per iteration. -/
def advOracle : ℕ → Option EncOutput :=
  fun i => if i = 2 then some ⟨10 ^ 20, 50⟩ else some ⟨95, 50⟩

end OracleExamples

section Analysis

variable {V : Type}

/-- An attempt is "bad" when its measured vmaf does not exceed the target
(the loop's Not-Good-Enough branch). -/
def badA (cfg : Cfg) (a : Attempt V) : Prop := a.enc.vmaf ≤ cfg.minVmaf

/-- An attempt is "good" when its measured vmaf exceeds the target. -/
def goodA (cfg : Cfg) (a : Attempt V) : Prop := cfg.minVmaf < a.enc.vmaf

/-- Largest coordinate among bad attempts, with default `minQ - 1`. -/
def maxBadQ (cfg : Cfg) : List (Attempt V) → ℚ
  | [] => cfg.minQ - 1
  | a :: l =>
    if a.enc.vmaf ≤ cfg.minVmaf then max a.q (maxBadQ cfg l) else maxBadQ cfg l

/-- Smallest coordinate among good attempts, with default `maxQ + 1`. -/
def minGoodQ (cfg : Cfg) : List (Attempt V) → ℚ
  | [] => cfg.maxQ + 1
  | a :: l =>
    if a.enc.vmaf ≤ cfg.minVmaf then minGoodQ cfg l else min a.q (minGoodQ cfg l)

lemma minQ_sub_one_le_maxBadQ (cfg : Cfg) (l : List (Attempt V)) :
    cfg.minQ - 1 ≤ maxBadQ cfg l := by
  induction l with
  | nil => exact le_refl _
  | cons a l ih =>
    unfold maxBadQ
    split_ifs
    · exact le_trans ih (le_max_right _ _)
    · exact ih

lemma minGoodQ_le_maxQ_add_one (cfg : Cfg) (l : List (Attempt V)) :
    minGoodQ cfg l ≤ cfg.maxQ + 1 := by
  induction l with
  | nil => exact le_refl _
  | cons a l ih =>
    unfold minGoodQ
    split_ifs
    · exact ih
    · exact le_trans (min_le_right _ _) ih

lemma le_maxBadQ_of_mem {cfg : Cfg} {l : List (Attempt V)} {a : Attempt V}
    (ha : a ∈ l) (hbad : a.enc.vmaf ≤ cfg.minVmaf) : a.q ≤ maxBadQ cfg l := by
  induction l with
  | nil => cases ha
  | cons b l ih =>
    unfold maxBadQ
    rcases List.mem_cons.mp ha with rfl | ha'
    · rw [if_pos hbad]; exact le_max_left _ _
    · split_ifs with hb
      · exact le_trans (ih ha') (le_max_right _ _)
      · exact ih ha'

lemma minGoodQ_le_of_mem {cfg : Cfg} {l : List (Attempt V)} {a : Attempt V}
    (ha : a ∈ l) (hgood : cfg.minVmaf < a.enc.vmaf) : minGoodQ cfg l ≤ a.q := by
  induction l with
  | nil => cases ha
  | cons b l ih =>
    unfold minGoodQ
    rcases List.mem_cons.mp ha with rfl | ha'
    · rw [if_neg (not_le.mpr hgood)]; exact min_le_left _ _
    · split_ifs with hb
      · exact ih ha'
      · exact le_trans (min_le_right _ _) (ih ha')

lemma maxBadQ_cases (cfg : Cfg) (l : List (Attempt V)) :
    maxBadQ cfg l = cfg.minQ - 1 ∨
      ∃ a ∈ l, a.enc.vmaf ≤ cfg.minVmaf ∧ maxBadQ cfg l = a.q := by
  induction l with
  | nil => exact Or.inl rfl
  | cons b l ih =>
    unfold maxBadQ
    split_ifs with hb
    · rcases le_total (maxBadQ cfg l) b.q with h | h
      · exact Or.inr ⟨b, List.mem_cons_self _ _, hb, max_eq_left h⟩
      · rw [max_eq_right h]
        rcases ih with h0 | ⟨a, ha, hba, hq⟩
        · exact Or.inl h0
        · exact Or.inr ⟨a, List.mem_cons_of_mem _ ha, hba, hq⟩
    · rcases ih with h0 | ⟨a, ha, hba, hq⟩
      · exact Or.inl h0
      · exact Or.inr ⟨a, List.mem_cons_of_mem _ ha, hba, hq⟩

lemma minGoodQ_cases (cfg : Cfg) (l : List (Attempt V)) :
    minGoodQ cfg l = cfg.maxQ + 1 ∨
      ∃ a ∈ l, cfg.minVmaf < a.enc.vmaf ∧ minGoodQ cfg l = a.q := by
  induction l with
  | nil => exact Or.inl rfl
  | cons b l ih =>
    unfold minGoodQ
    split_ifs with hb
    · rcases ih with h0 | ⟨a, ha, hba, hq⟩
      · exact Or.inl h0
      · exact Or.inr ⟨a, List.mem_cons_of_mem _ ha, hba, hq⟩
    · rcases le_total b.q (minGoodQ cfg l) with h | h
      · exact Or.inr ⟨b, List.mem_cons_self _ _, not_le.mp hb, min_eq_left h⟩
      · rw [min_eq_right h]
        rcases ih with h0 | ⟨a, ha, hba, hq⟩
        · exact Or.inl h0
        · exact Or.inr ⟨a, List.mem_cons_of_mem _ ha, hba, hq⟩

lemma maxBadQ_append_good {cfg : Cfg} {a : Attempt V} (l : List (Attempt V))
    (ha : cfg.minVmaf < a.enc.vmaf) :
    maxBadQ cfg (l ++ [a]) = maxBadQ cfg l := by
  induction l with
  | nil => simp [maxBadQ, not_le.mpr ha]
  | cons b l ih =>
    simp only [List.cons_append]
    unfold maxBadQ
    rw [ih]

lemma maxBadQ_append_bad {cfg : Cfg} {a : Attempt V} (l : List (Attempt V))
    (ha : a.enc.vmaf ≤ cfg.minVmaf) :
    maxBadQ cfg (l ++ [a]) = max a.q (maxBadQ cfg l) := by
  induction l with
  | nil =>
    simp only [List.nil_append]
    unfold maxBadQ
    rw [if_pos ha]
    rfl
  | cons b l ih =>
    simp only [List.cons_append]
    unfold maxBadQ
    rw [ih]
    split_ifs
    · rw [max_left_comm]
    · rfl

lemma minGoodQ_append_bad {cfg : Cfg} {a : Attempt V} (l : List (Attempt V))
    (ha : a.enc.vmaf ≤ cfg.minVmaf) :
    minGoodQ cfg (l ++ [a]) = minGoodQ cfg l := by
  induction l with
  | nil => simp [minGoodQ, ha]
  | cons b l ih =>
    simp only [List.cons_append]
    unfold minGoodQ
    rw [ih]

lemma minGoodQ_append_good {cfg : Cfg} {a : Attempt V} (l : List (Attempt V))
    (ha : cfg.minVmaf < a.enc.vmaf) :
    minGoodQ cfg (l ++ [a]) = min a.q (minGoodQ cfg l) := by
  induction l with
  | nil =>
    simp only [List.nil_append]
    unfold minGoodQ
    rw [if_neg (not_le.mpr ha)]
    rfl
  | cons b l ih =>
    simp only [List.cons_append]
    unfold minGoodQ
    rw [ih]
    split_ifs
    · rfl
    · rw [min_left_comm]

lemma lBound_some {l : List (Attempt V)} {q : ℚ} {lo : Attempt V}
    (h : lBound l q = some lo) :
    lo ∈ l ∧ lo.q < q ∧ ∀ a ∈ l, a.q < q → a.q ≤ lo.q := by
  have hmem : lo ∈ (l.filter fun a => decide (a.q < q)) :=
    List.argmax_mem (show lo ∈ _ from h)
  have h1 := List.mem_filter.mp hmem
  refine ⟨h1.1, of_decide_eq_true h1.2, fun a ha haq => ?_⟩
  exact List.le_of_mem_argmax
    (List.mem_filter.mpr ⟨ha, decide_eq_true haq⟩) (show lo ∈ _ from h)

lemma lBound_none {l : List (Attempt V)} {q : ℚ} (h : lBound l q = none) :
    ∀ a ∈ l, ¬a.q < q := by
  intro a ha haq
  have : (l.filter fun a => decide (a.q < q)) = [] := List.argmax_eq_none.mp h
  have : a ∈ ([] : List (Attempt V)) := this ▸ List.mem_filter.mpr ⟨ha, decide_eq_true haq⟩
  cases this

lemma uBound_some {l : List (Attempt V)} {q : ℚ} {u : Attempt V}
    (h : uBound l q = some u) :
    u ∈ l ∧ q < u.q ∧ ∀ a ∈ l, q < a.q → u.q ≤ a.q := by
  have hmem : u ∈ (l.filter fun a => decide (q < a.q)) :=
    List.argmin_mem (show u ∈ _ from h)
  have h1 := List.mem_filter.mp hmem
  refine ⟨h1.1, of_decide_eq_true h1.2, fun a ha haq => ?_⟩
  exact List.le_of_mem_argmin
    (List.mem_filter.mpr ⟨ha, decide_eq_true haq⟩) (show u ∈ _ from h)

lemma uBound_none {l : List (Attempt V)} {q : ℚ} (h : uBound l q = none) :
    ∀ a ∈ l, ¬q < a.q := by
  intro a ha haq
  have : (l.filter fun a => decide (q < a.q)) = [] := List.argmin_eq_none.mp h
  have : a ∈ ([] : List (Attempt V)) := this ▸ List.mem_filter.mpr ⟨ha, decide_eq_true haq⟩
  cases this

lemma vmafLerpQ_some_bounds {m wq wv bq bv r : ℚ}
    (h : vmafLerpQ m wq wv bq bv = some r) : wq + 1 ≤ r ∧ r ≤ bq - 1 := by
  unfold vmafLerpQ rustClamp at h
  split_ifs at h with hc hcl
  · have := Option.some.inj h
    subst this
    constructor <;> split_ifs <;> linarith

/-- State invariant maintained by the loop: the configuration is
non-degenerate, the cursor and all recorded attempts stay within
`[minQ, maxQ]`, all bad attempts lie strictly below the cursor, and all
good attempts strictly above. -/
structure Inv (cfg : Cfg) (nfq : ℚ → V) (st : SearchState V) : Prop where
  hq : cfg.minQ ≤ cfg.maxQ
  hR1 : cfg.minQ ≤ st.q
  hR2 : st.q ≤ cfg.maxQ
  hV : st.val = nfq st.q
  hH : ∀ a ∈ st.attempts, cfg.minQ ≤ a.q ∧ a.q ≤ cfg.maxQ
  hJ : ∀ a ∈ st.attempts, a.enc.vmaf ≤ cfg.minVmaf → a.q < st.q
  hK : ∀ a ∈ st.attempts, cfg.minVmaf < a.enc.vmaf → st.q < a.q

/-- Strengthened position invariant used by the termination argument:
the cursor sits at least one `q` unit inside the bad/good frontier. -/
def Pinv (cfg : Cfg) (st : SearchState V) : Prop :=
  maxBadQ cfg st.attempts + 1 ≤ st.q ∧ st.q ≤ minGoodQ cfg st.attempts - 1

/-- Termination measure: the (ceiled) width of the bracket between the
good and bad frontiers. -/
def width (cfg : Cfg) (st : SearchState V) : ℕ :=
  (Int.ceil (minGoodQ cfg st.attempts - maxBadQ cfg st.attempts)).toNat

lemma step_next_cases (cfg : Cfg) (nfq : ℚ → V) (st : SearchState V)
    (resp : EncOutput) (st' : SearchState V)
    (h : searchStep cfg nfq st resp = .next st') :
    (∃ lower q', cfg.minVmaf < resp.vmaf ∧
      lBound (st.attempts ++ [⟨st.q, st.val, resp⟩]) st.q = some lower ∧
      vmafLerpQ cfg.minVmaf lower.q lower.enc.vmaf st.q resp.vmaf = some q' ∧
      st' = setQ nfq st (st.attempts ++ [⟨st.q, st.val, resp⟩]) q') ∨
    (cfg.minVmaf < resp.vmaf ∧
      lBound (st.attempts ++ [⟨st.q, st.val, resp⟩]) st.q = none ∧
      st.q ≠ cfg.minQ ∧ st.run = 1 ∧ st.q + 1 < cfg.minQ ∧
      st' = setQ nfq st (st.attempts ++ [⟨st.q, st.val, resp⟩]) ((st.q + cfg.minQ) / 2)) ∨
    (cfg.minVmaf < resp.vmaf ∧
      lBound (st.attempts ++ [⟨st.q, st.val, resp⟩]) st.q = none ∧
      st.q ≠ cfg.minQ ∧
      st' = setQ nfq st (st.attempts ++ [⟨st.q, st.val, resp⟩]) cfg.minQ) ∨
    (∃ upper q', resp.vmaf ≤ cfg.minVmaf ∧
      resp.encode_percent ≤ cfg.maxEncodedPercent ∧ st.q ≠ cfg.maxQ ∧
      uBound (st.attempts ++ [⟨st.q, st.val, resp⟩]) st.q = some upper ∧
      vmafLerpQ cfg.minVmaf st.q resp.vmaf upper.q upper.enc.vmaf = some q' ∧
      st' = setQ nfq st (st.attempts ++ [⟨st.q, st.val, resp⟩]) q') ∨
    (resp.vmaf ≤ cfg.minVmaf ∧
      resp.encode_percent ≤ cfg.maxEncodedPercent ∧ st.q ≠ cfg.maxQ ∧
      uBound (st.attempts ++ [⟨st.q, st.val, resp⟩]) st.q = none ∧
      st.run = 1 ∧ cfg.maxQ + 1 < st.q ∧
      st' = setQ nfq st (st.attempts ++ [⟨st.q, st.val, resp⟩]) ((cfg.maxQ + st.q) / 2)) ∨
    (resp.vmaf ≤ cfg.minVmaf ∧
      resp.encode_percent ≤ cfg.maxEncodedPercent ∧ st.q ≠ cfg.maxQ ∧
      uBound (st.attempts ++ [⟨st.q, st.val, resp⟩]) st.q = none ∧
      st' = setQ nfq st (st.attempts ++ [⟨st.q, st.val, resp⟩]) cfg.maxQ) := by
  simp only [searchStep] at h
  split at h
  next hg =>
    split at h
    next hacc => exact absurd h (by simp)
    next hacc =>
      split at h
      next lower heq =>
        split at h
        next hgap =>
          split at h <;> exact absurd h (by simp)
        next hgap =>
          split at h
          next q' hlerp =>
            injection h with h
            exact Or.inl ⟨lower, q', hg, heq, hlerp, h.symm⟩
          next hlerp => exact absurd h (by simp)
      next heq =>
        split at h
        next hmin =>
          split at h <;> exact absurd h (by simp)
        next hmin =>
          split at h
          next hmid =>
            injection h with h
            exact Or.inr (Or.inl ⟨hg, heq, hmin, hmid.1, hmid.2, h.symm⟩)
          next hmid =>
            injection h with h
            exact Or.inr (Or.inr (Or.inl ⟨hg, heq, hmin, h.symm⟩))
  next hg =>
    have hbadv : resp.vmaf ≤ cfg.minVmaf := not_lt.mp hg
    split at h
    next hbig => exact absurd h (by simp)
    next hbig =>
      push_neg at hbig
      obtain ⟨hsmall, hqmax⟩ := hbig
      split at h
      next upper heq =>
        split at h
        next hgap =>
          split at h <;> exact absurd h (by simp)
        next hgap =>
          split at h
          next q' hlerp =>
            injection h with h
            exact Or.inr (Or.inr (Or.inr (Or.inl
              ⟨upper, q', hbadv, hsmall, hqmax, heq, hlerp, h.symm⟩)))
          next hlerp => exact absurd h (by simp)
      next heq =>
        split at h
        next hmid =>
          injection h with h
          exact Or.inr (Or.inr (Or.inr (Or.inr (Or.inl
            ⟨hbadv, hsmall, hqmax, heq, hmid.1, hmid.2, h.symm⟩))))
        next hmid =>
          injection h with h
          exact Or.inr (Or.inr (Or.inr (Or.inr (Or.inr
            ⟨hbadv, hsmall, hqmax, heq, h.symm⟩))))

lemma step_done_ok (cfg : Cfg) (nfq : ℚ → V) (st : SearchState V)
    (resp : EncOutput) (a : Attempt V)
    (h : searchStep cfg nfq st resp = .done (.ok a)) :
    (a.enc = resp ∧ cfg.minVmaf < resp.vmaf ∧
      resp.encode_percent ≤ cfg.maxEncodedPercent) ∨
    (uBound (st.attempts ++ [⟨st.q, st.val, resp⟩]) st.q = some a ∧
      a.enc.encode_percent ≤ cfg.maxEncodedPercent) := by
  simp only [searchStep] at h
  split at h
  next hg =>
    split at h
    next hacc =>
      injection h with h
      injection h with h
      exact Or.inl ⟨by rw [← h], hg, hacc.1⟩
    next hacc =>
      split at h
      next lower heq =>
        split at h
        next hgap =>
          split at h
          next hsmall =>
            injection h with h
            injection h with h
            exact Or.inl ⟨by rw [← h], hg, hsmall⟩
          next hsmall =>
            injection h with h
            exact absurd h (by simp)
        next hgap =>
          split at h
          next q' hlerp => exact absurd h (by simp)
          next hlerp =>
            injection h with h
            exact absurd h (by simp)
      next heq =>
        split at h
        next hmin =>
          split at h
          next hsmall =>
            injection h with h
            injection h with h
            exact Or.inl ⟨by rw [← h], hg, hsmall⟩
          next hsmall =>
            injection h with h
            exact absurd h (by simp)
        next hmin =>
          split at h <;> exact absurd h (by simp)
  next hg =>
    split at h
    next hbig =>
      injection h with h
      exact absurd h (by simp)
    next hbig =>
      split at h
      next upper heq =>
        split at h
        next hgap =>
          split at h
          next hsmall =>
            injection h with h
            injection h with h
            exact Or.inr ⟨by rw [← h]; exact heq, by rw [← h]; exact hsmall⟩
          next hsmall =>
            injection h with h
            exact absurd h (by simp)
        next hgap =>
          split at h
          next q' hlerp => exact absurd h (by simp)
          next hlerp =>
            injection h with h
            exact absurd h (by simp)
      next heq =>
        split at h <;> exact absurd h (by simp)

lemma inv_init (cfg : Cfg) (nfq : ℚ → V) (hq : cfg.minQ ≤ cfg.maxQ) :
    Inv cfg nfq (initState nfq cfg.minQ cfg.maxQ) := by
  refine ⟨hq, by simp [initState]; linarith, by simp [initState]; linarith, rfl,
    ?_, ?_, ?_⟩ <;> intro a ha <;> exact absurd ha (by simp [initState])

lemma inv_step {cfg : Cfg} {nfq : ℚ → V} {st st' : SearchState V}
    {resp : EncOutput} (hInv : Inv cfg nfq st)
    (h : searchStep cfg nfq st resp = .next st') : Inv cfg nfq st' := by
  obtain ⟨hq, hR1, hR2, hV, hH, hJ, hK⟩ := hInv
  have hmem : ∀ a : Attempt V, a ∈ st.attempts ++ [⟨st.q, st.val, resp⟩] →
      a ∈ st.attempts ∨ a = ⟨st.q, st.val, resp⟩ := by
    intro a ha
    rcases List.mem_append.mp ha with h1 | h1
    · exact Or.inl h1
    · exact Or.inr (List.mem_singleton.mp h1)
  have hHl : ∀ a ∈ st.attempts ++ [⟨st.q, st.val, resp⟩],
      cfg.minQ ≤ a.q ∧ a.q ≤ cfg.maxQ := by
    intro a ha
    rcases hmem a ha with h1 | rfl
    · exact hH a h1
    · exact ⟨hR1, hR2⟩
  rcases step_next_cases cfg nfq st resp st' h with
    ⟨lower, q', hg, heq, hlerp, rfl⟩ | ⟨hg, heq, hmin, hrun, hmid, rfl⟩ |
    ⟨hg, heq, hmin, rfl⟩ | ⟨upper, q', hbadv, hsmall, hqmax, heq, hlerp, rfl⟩ |
    ⟨hbadv, hsmall, hqmax, heq, hrun, hmid, rfl⟩ |
    ⟨hbadv, hsmall, hqmax, heq, rfl⟩
  · -- Good-Enough interpolation toward the lower bound
    obtain ⟨hlb1, hlb2, hlb3⟩ := lBound_some heq
    obtain ⟨hq1, hq2⟩ := vmafLerpQ_some_bounds hlerp
    have hlow : lower ∈ st.attempts := by
      rcases hmem lower hlb1 with h1 | rfl
      · exact h1
      · exact absurd hlb2 (lt_irrefl _)
    refine ⟨hq, ?_, ?_, rfl, hHl, ?_, ?_⟩
    · have := (hH lower hlow).1; simp only [setQ]; linarith
    · simp only [setQ]; linarith
    · intro a ha hbad
      simp only [setQ]
      rcases hmem a ha with h1 | rfl
      · have := hlb3 a ha (hJ a h1 hbad)
        linarith
      · exact absurd hbad (not_le.mpr hg)
    · intro a ha hgood
      simp only [setQ]
      rcases hmem a ha with h1 | rfl
      · have := hK a h1 hgood
        linarith
      · simp only []
        linarith
  · -- dead branch: the midpoint retry needs st.q + 1 < minQ
    exact absurd hmid (by linarith)
  · -- Good-Enough, no lower bound: retry at minQ
    refine ⟨hq, le_refl _, hq, rfl, hHl, ?_, ?_⟩
    · intro a ha hbad
      simp only [setQ]
      rcases hmem a ha with h1 | rfl
      · exact absurd (hJ a h1 hbad) (lBound_none heq a ha)
      · exact absurd hbad (not_le.mpr hg)
    · intro a ha hgood
      simp only [setQ]
      rcases hmem a ha with h1 | rfl
      · exact lt_of_le_of_lt hR1 (hK a h1 hgood)
      · exact lt_of_le_of_ne hR1 (Ne.symm hmin)
  · -- Not-Good-Enough interpolation toward the upper bound
    obtain ⟨hub1, hub2, hub3⟩ := uBound_some heq
    obtain ⟨hq1, hq2⟩ := vmafLerpQ_some_bounds hlerp
    have hup : upper ∈ st.attempts := by
      rcases hmem upper hub1 with h1 | rfl
      · exact h1
      · exact absurd hub2 (lt_irrefl _)
    refine ⟨hq, ?_, ?_, rfl, hHl, ?_, ?_⟩
    · simp only [setQ]; linarith
    · have := (hH upper hup).2; simp only [setQ]; linarith
    · intro a ha hbad
      simp only [setQ]
      rcases hmem a ha with h1 | rfl
      · have := hJ a h1 hbad
        linarith
      · simp only []
        linarith
    · intro a ha hgood
      simp only [setQ]
      rcases hmem a ha with h1 | rfl
      · have := hub3 a ha (hK a h1 hgood)
        linarith
      · exact absurd hbadv (not_le.mpr hgood)
  · -- dead branch: the midpoint retry needs maxQ + 1 < st.q
    exact absurd hmid (by linarith)
  · -- Not-Good-Enough, no upper bound: retry at maxQ
    have hlt : st.q < cfg.maxQ := lt_of_le_of_ne hR2 hqmax
    refine ⟨hq, hq, le_refl _, rfl, hHl, ?_, ?_⟩
    · intro a ha hbad
      simp only [setQ]
      rcases hmem a ha with h1 | rfl
      · exact lt_trans (hJ a h1 hbad) hlt
      · exact hlt
    · intro a ha hgood
      simp only [setQ]
      rcases hmem a ha with h1 | rfl
      · exact absurd (hK a h1 hgood) (uBound_none heq a ha)
      · exact absurd hbadv (not_le.mpr hgood)

lemma vmafLerpQ_none_of_gap {m wq wv bq bv : ℚ} (hgap : bq < wq + 2) :
    vmafLerpQ m wq wv bq bv = none := by
  unfold vmafLerpQ rustClamp
  split_ifs with h1 h2
  · exact absurd h2 (by push_neg; linarith)
  · rfl
  · rfl

lemma graceL_terminal {cfg : Cfg} {nfq : ℚ → V} {st : SearchState V}
    (hq : st.q = cfg.minQ) (hH : ∀ a ∈ st.attempts, cfg.minQ ≤ a.q)
    (hu : ∃ u ∈ st.attempts, cfg.minQ < u.q ∧ u.q < cfg.minQ + 1) :
    ∀ resp, ∃ e, searchStep cfg nfq st resp = .done e := by
  intro resp
  obtain ⟨u, humem, hu1, hu2⟩ := hu
  simp only [searchStep]
  by_cases hg : resp.vmaf > cfg.minVmaf
  · rw [if_pos hg]
    by_cases hacc : resp.encode_percent ≤ cfg.maxEncodedPercent ∧
        resp.vmaf < cfg.minVmaf + higherTolerance cfg.inc cfg.thorough st.run
    · rw [if_pos hacc]
      exact ⟨_, rfl⟩
    · rw [if_neg hacc]
      have hlb : lBound (st.attempts ++ [⟨st.q, st.val, resp⟩]) st.q = none := by
        unfold lBound
        rw [List.argmax_eq_none, List.filter_eq_nil_iff]
        intro a ha
        simp only [decide_eq_true_eq]
        rcases List.mem_append.mp ha with h1 | h1
        · have := hH a h1
          rw [hq]
          linarith
        · rw [List.mem_singleton.mp h1]
          exact lt_irrefl _
      rw [hlb, if_pos hq]
      by_cases hsmall : resp.encode_percent ≤ cfg.maxEncodedPercent
      · rw [if_pos hsmall]
        exact ⟨_, rfl⟩
      · rw [if_neg hsmall]
        exact ⟨_, rfl⟩
  · rw [if_neg hg]
    by_cases hbig : ¬resp.encode_percent ≤ cfg.maxEncodedPercent ∨ st.q = cfg.maxQ
    · rw [if_pos hbig]
      exact ⟨_, rfl⟩
    · rw [if_neg hbig]
      have hmemfil : u ∈ (st.attempts ++ [(⟨st.q, st.val, resp⟩ : Attempt V)]).filter
          fun a => decide (st.q < a.q) := by
        refine List.mem_filter.mpr ⟨List.mem_append_left _ humem, ?_⟩
        rw [hq]
        exact decide_eq_true hu1
      obtain ⟨upper, hup⟩ : ∃ upper,
          uBound (st.attempts ++ [⟨st.q, st.val, resp⟩]) st.q = some upper := by
        unfold uBound
        rcases ho : ((st.attempts ++ [(⟨st.q, st.val, resp⟩ : Attempt V)]).filter
            fun a => decide (st.q < a.q)).argmin (·.q) with _ | upper
        · rw [List.argmin_eq_none] at ho
          rw [ho] at hmemfil
          cases hmemfil
        · exact ⟨upper, ho⟩
      obtain ⟨hup1, hup2, hup3⟩ := uBound_some hup
      have hule : upper.q ≤ u.q := hup3 u (List.mem_append_left _ humem) (by rw [hq]; exact hu1)
      have hgapne : ¬(upper.q - 1 = st.q) := by
        rw [hq]
        intro hcontra
        have hupq : upper.q = cfg.minQ + 1 := by linarith
        linarith
      have hnone : vmafLerpQ cfg.minVmaf st.q resp.vmaf upper.q upper.enc.vmaf =
          none := vmafLerpQ_none_of_gap (by rw [hq] at hup2 ⊢; linarith)
      refine ⟨IterEnd.panicked, ?_⟩
      simp only [hup, if_neg hgapne, hnone]

lemma graceR_terminal {cfg : Cfg} {nfq : ℚ → V} {st : SearchState V}
    (hq : st.q = cfg.maxQ)
    (hw : ∃ w ∈ st.attempts, cfg.maxQ - 1 < w.q ∧ w.q < cfg.maxQ) :
    ∀ resp, ∃ e, searchStep cfg nfq st resp = .done e := by
  intro resp
  obtain ⟨w, hwmem, hw1, hw2⟩ := hw
  simp only [searchStep]
  by_cases hg : resp.vmaf > cfg.minVmaf
  · rw [if_pos hg]
    by_cases hacc : resp.encode_percent ≤ cfg.maxEncodedPercent ∧
        resp.vmaf < cfg.minVmaf + higherTolerance cfg.inc cfg.thorough st.run
    · rw [if_pos hacc]
      exact ⟨_, rfl⟩
    · rw [if_neg hacc]
      have hmemfil : w ∈ (st.attempts ++ [(⟨st.q, st.val, resp⟩ : Attempt V)]).filter
          fun a => decide (a.q < st.q) := by
        refine List.mem_filter.mpr ⟨List.mem_append_left _ hwmem, ?_⟩
        rw [hq]
        exact decide_eq_true hw2
      obtain ⟨lower, hlo⟩ : ∃ lower,
          lBound (st.attempts ++ [⟨st.q, st.val, resp⟩]) st.q = some lower := by
        unfold lBound
        rcases ho : ((st.attempts ++ [(⟨st.q, st.val, resp⟩ : Attempt V)]).filter
            fun a => decide (a.q < st.q)).argmax (·.q) with _ | lower
        · rw [List.argmax_eq_none] at ho
          rw [ho] at hmemfil
          cases hmemfil
        · exact ⟨lower, ho⟩
      obtain ⟨hlo1, hlo2, hlo3⟩ := lBound_some hlo
      have hlge : w.q ≤ lower.q :=
        hlo3 w (List.mem_append_left _ hwmem) (by rw [hq]; exact hw2)
      have hgapne : ¬(lower.q = st.q + 1) := by
        intro hc
        rw [hc] at hlo2
        linarith
      have hnone : vmafLerpQ cfg.minVmaf lower.q lower.enc.vmaf st.q resp.vmaf =
          none := vmafLerpQ_none_of_gap (by rw [hq]; linarith)
      refine ⟨IterEnd.panicked, ?_⟩
      simp only [hlo, if_neg hgapne, hnone]
  · rw [if_neg hg]
    rw [if_pos (Or.inr hq)]
    exact ⟨_, rfl⟩

lemma step_next_run {cfg : Cfg} {nfq : ℚ → V} {st st' : SearchState V}
    {resp : EncOutput} (h : searchStep cfg nfq st resp = .next st') :
    st'.run = st.run + 1 := by
  rcases step_next_cases cfg nfq st resp st' h with
    ⟨_, _, _, _, _, rfl⟩ | ⟨_, _, _, _, _, rfl⟩ | ⟨_, _, _, rfl⟩ |
    ⟨_, _, _, _, _, _, _, rfl⟩ | ⟨_, _, _, _, _, _, rfl⟩ | ⟨_, _, _, _, rfl⟩ <;>
    rfl

lemma toNatCeil_lt {x y : ℚ} (h : x ≤ y - 1) (h2 : 2 ≤ y) :
    (Int.ceil x).toNat < (Int.ceil y).toNat := by
  have h3 : ⌈x⌉ ≤ ⌈y⌉ - 1 := by
    have := Int.ceil_le_ceil (α := ℚ) h
    rwa [Int.ceil_sub_one] at this
  have h4 : (2 : ℤ) ≤ ⌈y⌉ := by
    have := Int.ceil_le_ceil (α := ℚ) h2
    simpa using this
  omega

lemma step_decrease {cfg : Cfg} {nfq : ℚ → V} {st st' : SearchState V}
    {resp : EncOutput} (hInv : Inv cfg nfq st) (hP : Pinv cfg st)
    (h : searchStep cfg nfq st resp = .next st') :
    (Pinv cfg st' ∧ width cfg st' < width cfg st) ∨
      (∀ resp', ∃ e, searchStep cfg nfq st' resp' = .done e) := by
  obtain ⟨hq, hR1, hR2, hV, hH, hJ, hK⟩ := hInv
  obtain ⟨hP1, hP2⟩ := hP
  rcases step_next_cases cfg nfq st resp st' h with
    ⟨lower, q', hg, heq, hlerp, rfl⟩ | ⟨hg, heq, hmin, hrun, hmid, rfl⟩ |
    ⟨hg, heq, hmin, rfl⟩ | ⟨upper, q', hbadv, hsmall, hqmax, heq, hlerp, rfl⟩ |
    ⟨hbadv, hsmall, hqmax, heq, hrun, hmid, rfl⟩ |
    ⟨hbadv, hsmall, hqmax, heq, rfl⟩
  · -- Good-Enough interpolation toward the lower bound
    obtain ⟨hlb1, hlb2, hlb3⟩ := lBound_some heq
    obtain ⟨hq1, hq2⟩ := vmafLerpQ_some_bounds hlerp
    have hlow : lower ∈ st.attempts := by
      rcases List.mem_append.mp hlb1 with h1 | h1
      · exact h1
      · rw [List.mem_singleton.mp h1] at hlb2
        exact absurd hlb2 (lt_irrefl _)
    have happB : maxBadQ cfg (st.attempts ++ [⟨st.q, st.val, resp⟩]) =
        maxBadQ cfg st.attempts := maxBadQ_append_good _ hg
    have happG : minGoodQ cfg (st.attempts ++ [⟨st.q, st.val, resp⟩]) =
        st.q := by
      rw [minGoodQ_append_good _ hg]
      exact min_eq_left (by linarith)
    have hBlow : maxBadQ cfg st.attempts ≤ lower.q := by
      rcases maxBadQ_cases cfg st.attempts with hc | ⟨b, hbmem, hbbad, hbq⟩
      · rw [hc]
        have := (hH lower hlow).1
        linarith
      · rw [hbq]
        exact hlb3 b (List.mem_append_left _ hbmem) (hJ b hbmem hbbad)
    left
    constructor
    · exact ⟨by simp only [setQ, happB]; linarith,
        by simp only [setQ, happG]; linarith⟩
    · simp only [width, setQ, happB, happG]
      exact toNatCeil_lt (by linarith) (by linarith)
  · -- dead branch: needs st.q + 1 < minQ
    exact absurd hmid (by linarith)
  · -- Good-Enough, no lower bound: retry at minQ
    have hnobad : ∀ b ∈ st.attempts, ¬(b.enc.vmaf ≤ cfg.minVmaf) := by
      intro b hb hbbad
      exact lBound_none heq b (List.mem_append_left _ hb) (hJ b hb hbbad)
    have hmaxB : maxBadQ cfg st.attempts = cfg.minQ - 1 := by
      rcases maxBadQ_cases cfg st.attempts with hc | ⟨b, hbmem, hbbad, hbq⟩
      · exact hc
      · exact absurd hbbad (hnobad b hbmem)
    have happB : maxBadQ cfg (st.attempts ++ [⟨st.q, st.val, resp⟩]) =
        maxBadQ cfg st.attempts := maxBadQ_append_good _ hg
    have happG : minGoodQ cfg (st.attempts ++ [⟨st.q, st.val, resp⟩]) =
        st.q := by
      rw [minGoodQ_append_good _ hg]
      exact min_eq_left (by linarith)
    have hstq : cfg.minQ < st.q := lt_of_le_of_ne hR1 (Ne.symm hmin)
    by_cases hsplit : cfg.minQ + 1 ≤ st.q
    · left
      constructor
      · exact ⟨by simp only [setQ, happB, hmaxB]; linarith,
          by simp only [setQ, happG]; linarith⟩
      · simp only [width, setQ, happB, happG, hmaxB]
        exact toNatCeil_lt (by linarith) (by linarith)
    · right
      refine graceL_terminal rfl ?_ ?_
      · intro a ha
        simp only [setQ] at ha
        rcases List.mem_append.mp ha with h1 | h1
        · exact (hH a h1).1
        · rw [List.mem_singleton.mp h1]
          exact hR1
      · refine ⟨⟨st.q, st.val, resp⟩, ?_, hstq, by push_neg at hsplit; linarith⟩
        simp only [setQ]
        exact List.mem_append_right _ (List.mem_singleton_self _)
  · -- Not-Good-Enough interpolation toward the upper bound
    obtain ⟨hub1, hub2, hub3⟩ := uBound_some heq
    obtain ⟨hq1, hq2⟩ := vmafLerpQ_some_bounds hlerp
    have hup : upper ∈ st.attempts := by
      rcases List.mem_append.mp hub1 with h1 | h1
      · exact h1
      · rw [List.mem_singleton.mp h1] at hub2
        exact absurd hub2 (lt_irrefl _)
    have happG : minGoodQ cfg (st.attempts ++ [⟨st.q, st.val, resp⟩]) =
        minGoodQ cfg st.attempts := minGoodQ_append_bad _ hbadv
    have happB : maxBadQ cfg (st.attempts ++ [⟨st.q, st.val, resp⟩]) =
        st.q := by
      rw [maxBadQ_append_bad _ hbadv]
      exact max_eq_left (by linarith)
    have hGup : upper.q ≤ minGoodQ cfg st.attempts := by
      rcases minGoodQ_cases cfg st.attempts with hc | ⟨g, hgmem, hggood, hgq⟩
      · rw [hc]
        have := (hH upper hup).2
        linarith
      · rw [hgq]
        exact hub3 g (List.mem_append_left _ hgmem) (hK g hgmem hggood)
    left
    constructor
    · exact ⟨by simp only [setQ, happB]; linarith,
        by simp only [setQ, happG]; linarith⟩
    · simp only [width, setQ, happB, happG]
      exact toNatCeil_lt (by linarith) (by linarith)
  · -- dead branch: needs maxQ + 1 < st.q
    exact absurd hmid (by linarith)
  · -- Not-Good-Enough, no upper bound: retry at maxQ
    have hnogood : ∀ g ∈ st.attempts, ¬(cfg.minVmaf < g.enc.vmaf) := by
      intro g hg hggood
      exact uBound_none heq g (List.mem_append_left _ hg) (hK g hg hggood)
    have hminG : minGoodQ cfg st.attempts = cfg.maxQ + 1 := by
      rcases minGoodQ_cases cfg st.attempts with hc | ⟨g, hgmem, hggood, hgq⟩
      · exact hc
      · exact absurd hggood (hnogood g hgmem)
    have happG : minGoodQ cfg (st.attempts ++ [⟨st.q, st.val, resp⟩]) =
        minGoodQ cfg st.attempts := minGoodQ_append_bad _ hbadv
    have happB : maxBadQ cfg (st.attempts ++ [⟨st.q, st.val, resp⟩]) =
        st.q := by
      rw [maxBadQ_append_bad _ hbadv]
      exact max_eq_left (by linarith)
    have hstq : st.q < cfg.maxQ := lt_of_le_of_ne hR2 hqmax
    by_cases hsplit : st.q + 1 ≤ cfg.maxQ
    · left
      constructor
      · exact ⟨by simp only [setQ, happB]; linarith,
          by simp only [setQ, happG, hminG]; linarith⟩
      · simp only [width, setQ, happB, happG, hminG]
        exact toNatCeil_lt (by linarith) (by linarith)
    · right
      refine graceR_terminal rfl ?_
      refine ⟨⟨st.q, st.val, resp⟩, ?_, by push_neg at hsplit; linarith, hstq⟩
      simp only [setQ]
      exact List.mem_append_right _ (List.mem_singleton_self _)

lemma searchRun_ok {cfg : Cfg} {nfq : ℚ → V} {oracle : ℕ → Option EncOutput} :
    ∀ (fuel : ℕ) (st : SearchState V) (a : Attempt V), Inv cfg nfq st →
      (searchRun cfg nfq oracle fuel st).1 = .ok a →
      cfg.minVmaf < a.enc.vmaf ∧ a.enc.encode_percent ≤ cfg.maxEncodedPercent := by
  intro fuel
  induction fuel with
  | zero => intro st a _ h; exact absurd h (by simp [searchRun])
  | succ n ih =>
    intro st a hInv h
    rw [searchRun] at h
    split at h
    next => exact absurd h (by simp)
    next resp horacle =>
      split at h
      next e hstep =>
        simp only [] at h
        cases e with
        | ok b =>
          have hb : b = a := by simpa [IterEnd.toOutcome] using h
          subst hb
          rcases step_done_ok _ _ _ _ _ hstep with ⟨henc, hgv, hsp⟩ | ⟨hub, hsp⟩
          · exact ⟨by rw [henc]; exact hgv, by rw [henc]; exact hsp⟩
          · obtain ⟨hb1, hb2, _⟩ := uBound_some hub
            have hmem : b ∈ st.attempts := by
              rcases List.mem_append.mp hb1 with h1 | h1
              · exact h1
              · rw [List.mem_singleton.mp h1] at hb2
                exact absurd hb2 (lt_irrefl _)
            have hgood : cfg.minVmaf < b.enc.vmaf := by
              by_contra hc
              have := hInv.hJ b hmem (not_lt.mp hc)
              linarith
            exact ⟨hgood, hsp⟩
        | noGood b => simp [IterEnd.toOutcome] at h
        | panicked => simp [IterEnd.toOutcome] at h
      next st' hstep =>
        simp only [] at h
        exact ih st' a (inv_step hInv hstep) h

lemma searchRun_trace_bounds {cfg : Cfg} {nfq : ℚ → V}
    {oracle : ℕ → Option EncOutput} :
    ∀ (fuel : ℕ) (st : SearchState V) (r : CallRec V), Inv cfg nfq st →
      r ∈ (searchRun cfg nfq oracle fuel st).2 →
      cfg.minQ ≤ r.q ∧ r.q ≤ cfg.maxQ ∧ r.val = nfq r.q := by
  intro fuel
  induction fuel with
  | zero => intro st r _ hr; exact absurd hr (by simp [searchRun])
  | succ n ih =>
    intro st r hInv hr
    rw [searchRun] at hr
    split at hr
    next =>
      simp only [List.mem_singleton] at hr
      subst hr
      exact ⟨hInv.hR1, hInv.hR2, hInv.hV⟩
    next resp horacle =>
      split at hr
      next e hstep =>
        simp only [List.mem_singleton] at hr
        subst hr
        exact ⟨hInv.hR1, hInv.hR2, hInv.hV⟩
      next st' hstep =>
        simp only [List.mem_cons] at hr
        rcases hr with rfl | hr
        · exact ⟨hInv.hR1, hInv.hR2, hInv.hV⟩
        · exact ih st' r (inv_step hInv hstep) hr

lemma searchRun_idx_lower {cfg : Cfg} {nfq : ℚ → V}
    {oracle : ℕ → Option EncOutput} :
    ∀ (fuel : ℕ) (st : SearchState V) (r : CallRec V),
      r ∈ (searchRun cfg nfq oracle fuel st).2 → st.run ≤ r.idx := by
  intro fuel
  induction fuel with
  | zero => intro st r hr; exact absurd hr (by simp [searchRun])
  | succ n ih =>
    intro st r hr
    rw [searchRun] at hr
    split at hr
    next =>
      simp only [List.mem_singleton] at hr
      subst hr
      exact le_refl _
    next resp horacle =>
      split at hr
      next e hstep =>
        simp only [List.mem_singleton] at hr
        subst hr
        exact le_refl _
      next st' hstep =>
        simp only [List.mem_cons] at hr
        rcases hr with rfl | hr
        · exact le_refl _
        · have := ih st' r hr
          rw [step_next_run hstep] at this
          omega

lemma searchRun_err_aborts {cfg : Cfg} {nfq : ℚ → V}
    {oracle : ℕ → Option EncOutput} :
    ∀ (fuel : ℕ) (st : SearchState V) (r : CallRec V),
      r ∈ (searchRun cfg nfq oracle fuel st).2 → oracle r.idx = none →
      (searchRun cfg nfq oracle fuel st).1 = .oracleErr ∧
        ∀ r' ∈ (searchRun cfg nfq oracle fuel st).2,
          r'.idx ≤ r.idx ∧ (r'.idx = r.idx → r' = r) := by
  intro fuel
  induction fuel with
  | zero => intro st r hr; exact absurd hr (by simp [searchRun])
  | succ n ih =>
    intro st r hr herr
    rw [searchRun] at hr ⊢
    split at hr
    next horacle =>
      simp only [List.mem_singleton] at hr
      subst hr
      refine ⟨rfl, ?_⟩
      intro r' hr'
      simp only [List.mem_singleton] at hr'
      subst hr'
      exact ⟨le_refl _, fun _ => rfl⟩
    next resp horacle =>
      split at hr
      next e hstep =>
        simp only [List.mem_singleton] at hr
        subst hr
        rw [horacle] at herr
        exact absurd herr (by simp)
      next st' hstep =>
        simp only [List.mem_cons] at hr
        rcases hr with rfl | hr
        · rw [horacle] at herr
          exact absurd herr (by simp)
        · obtain ⟨hout, hall⟩ := ih st' r hr herr
          have hlow : st.run + 1 ≤ r.idx := by
            have := searchRun_idx_lower n st' r hr
            rw [step_next_run hstep] at this
            omega
          refine ⟨by simp only []; exact hout, ?_⟩
          intro r' hr'
          simp only [List.mem_cons] at hr'
          rcases hr' with rfl | hr'
          · exact ⟨by simp only []; omega, fun hcontra => by simp only [] at hcontra; omega⟩
          · exact hall r' hr'

lemma pinv_init (cfg : Cfg) (nfq : ℚ → V) (hq : cfg.minQ ≤ cfg.maxQ) :
    Pinv cfg (initState nfq cfg.minQ cfg.maxQ) := by
  have h1 : maxBadQ cfg ([] : List (Attempt V)) = cfg.minQ - 1 := rfl
  have h2 : minGoodQ cfg ([] : List (Attempt V)) = cfg.maxQ + 1 := rfl
  refine ⟨?_, ?_⟩
  · simp only [initState, h1]
    linarith
  · simp only [initState, h2]
    linarith

lemma searchRun_no_fuelOut {cfg : Cfg} {nfq : ℚ → V}
    {oracle : ℕ → Option EncOutput} :
    ∀ (fuel n : ℕ) (st : SearchState V), Inv cfg nfq st → Pinv cfg st →
      width cfg st ≤ n → n + 2 ≤ fuel →
      (searchRun cfg nfq oracle fuel st).1 ≠ .fuelOut := by
  intro fuel
  induction fuel with
  | zero => intro n st _ _ _ hle; exact absurd hle (by omega)
  | succ m ih =>
    intro n st hInv hP hw hle h
    rw [searchRun] at h
    split at h
    next horacle => exact absurd h (by simp)
    next resp horacle =>
      split at h
      next e hstep =>
        cases e <;> simp [IterEnd.toOutcome] at h
      next st' hstep =>
        simp only [] at h
        rcases step_decrease hInv hP hstep with ⟨hP', hdec⟩ | hgrace
        · have hInv' := inv_step hInv hstep
          have hn : 1 ≤ n := by omega
          exact ih (n - 1) st' hInv' hP' (by omega) (by omega) h
        · obtain ⟨k, rfl⟩ : ∃ k, m = k + 1 := ⟨m - 1, by omega⟩
          rw [searchRun] at h
          split at h
          next horacle' => exact absurd h (by simp)
          next resp' horacle' =>
            split at h
            next e' hstep' =>
              cases e' <;> simp [IterEnd.toOutcome] at h
            next st'' hstep' =>
              obtain ⟨e, he⟩ := hgrace resp'
              rw [he] at hstep'
              exact StepRes.noConfusion hstep'

end Analysis

lemma brNumFromQ_spec {q : ℚ} {inc minBr maxBr : ℕ} (h1 : (minBr : ℚ) ≤ q)
    (h2 : q ≤ (maxBr : ℚ)) (hinc : 1 ≤ inc) (hu32 : maxBr ≤ 2 ^ 32 - 1) :
    inc ∣ brNumFromQ (fun v => v) q inc ∧
      brNumFromQ (fun v => v) q inc ≤ maxBr ∧
      minBr < brNumFromQ (fun v => v) q inc + inc := by
  have hfl : (minBr : ℤ) ≤ ⌊q⌋ := Int.le_floor.mpr (by exact_mod_cast h1)
  have hfu : ⌊q⌋ ≤ (maxBr : ℤ) := by
    have := Int.floor_le_floor h2
    rwa [Int.floor_natCast] at this
  have hx1 : minBr ≤ ⌊q⌋.toNat := by omega
  have hx2 : ⌊q⌋.toNat ≤ maxBr := by omega
  have hmin : ratAsU32 q = ⌊q⌋.toNat := by
    unfold ratAsU32
    omega
  have hbr : brNumFromQ (fun v => v) q inc = ⌊q⌋.toNat / inc * inc := by
    simp only [brNumFromQ]
    rw [hmin]
  rw [hbr]
  set x := ⌊q⌋.toNat with hxdef
  have hmod := Nat.div_add_mod x inc
  have hmlt : x % inc < inc := Nat.mod_lt x (by omega)
  have hcomm : x / inc * inc = inc * (x / inc) := Nat.mul_comm _ _
  refine ⟨dvd_mul_left inc (x / inc), ?_, ?_⟩ <;> omega

/-! Claim C1: success outcomes satisfy both constraints. -/

/-- C1 (amended): on every path on which the search `run` returns
`Ok(sample)` — including the Not-Good-Enough path that returns the
upper-bound attempt — the returned sample's measurement satisfies both
constraints (`vmaf > min_vmaf` and `encode_percent <= max_encoded_percent`).
Other outcomes are a classified no-viable-value failure carrying the last
attempted sample, a propagated oracle error (which carries no sample; see
the counterexample), or a panic in the interpolation clamp. -/
theorem bitrateSearchRun_ok_constraints (minVmaf maxPct : ℚ)
    (minBr maxBr inc0 : ℕ) (th : Bool) (oracle : ℕ → Option EncOutput)
    (fuel : ℕ) (a : Attempt ℕ)
    (h : (bitrateSearchRun minVmaf maxPct minBr maxBr inc0 th oracle fuel).1 =
      .ok a) :
    minVmaf < a.enc.vmaf ∧ a.enc.encode_percent ≤ maxPct := by
  simp only [bitrateSearchRun] at h
  split at h
  next hlt =>
    refine searchRun_ok fuel _ a ?_ h
    have hle : ((minBr : ℚ)) ≤ ((maxBr : ℚ)) := by
      exact_mod_cast Nat.le_of_lt hlt
    exact inv_init _ _ hle
  next hlt => exact absurd h (by simp)

/-- C1 witness: a run that accepts on the first iteration. -/
theorem bitrateSearchRun_ok_constraints_witness :
    (bitrateSearchRun 95 80 100 1000 100 false accOracle 10).1 =
      .ok ⟨550, 500, ⟨95 + 1 / 20, 50⟩⟩ ∧
      ((95 : ℚ) < (EncOutput.mk (95 + 1 / 20) 50).vmaf ∧
        (EncOutput.mk (95 + 1 / 20) 50).encode_percent ≤ 80) :=
  ⟨by decide,
    bitrateSearchRun_ok_constraints 95 80 100 1000 100 false accOracle 10
      ⟨550, 500, ⟨95 + 1 / 20, 50⟩⟩ (by decide)⟩

/-- C1 counterexample: when the oracle fails, the outcome is a propagated
oracle error, not a classified failure carrying the last attempted
sample — so "every other outcome is a classified failure carrying the
last attempted Sample" is false as stated. -/
theorem bitrateSearchRun_ok_constraints_cx :
    (bitrateSearchRun 95 80 150 250 100 false errOracle 10).1 = .oracleErr ∧
      ∀ a : Attempt ℕ,
        (bitrateSearchRun 95 80 150 250 100 false errOracle 10).1 ≠
          .noGood a := by
  have h0 : (bitrateSearchRun 95 80 150 250 100 false errOracle 10).1 =
      .oracleErr := by decide
  refine ⟨h0, fun a h => ?_⟩
  rw [h0] at h
  exact Outcome.noConfusion h

/-! Claim C6: quantization of the trial values. -/

/-- C6 (amended): every trial value passed to the oracle during a bitrate
search is a multiple of the (coerced) increment and satisfies
`val <= max_br` and `min_br < val + inc`; it can fall below `min_br`
(by up to one increment) because `num_from_q` floor-quantizes — see the
counterexample — so the claimed containment in `[min_value, max_value]`
holds only when `min_value` is itself a multiple of the increment.
The hypothesis `max_br <= 2^32 - 1` reflects the Rust `u32` type bound. -/
theorem bitrateSearchRun_trial_values (minVmaf maxPct : ℚ)
    (minBr maxBr inc0 : ℕ) (th : Bool) (oracle : ℕ → Option EncOutput)
    (fuel : ℕ) (r : CallRec ℕ) (hu32 : maxBr ≤ 2 ^ 32 - 1)
    (hr : r ∈ (bitrateSearchRun minVmaf maxPct minBr maxBr inc0 th oracle fuel).2) :
    max inc0 1 ∣ r.val ∧ r.val ≤ maxBr ∧ minBr < r.val + max inc0 1 := by
  simp only [bitrateSearchRun] at hr
  split at hr
  next hlt =>
    have hle : ((minBr : ℚ)) ≤ ((maxBr : ℚ)) := by
      exact_mod_cast Nat.le_of_lt hlt
    obtain ⟨hq1, hq2, hval⟩ :=
      searchRun_trace_bounds fuel _ r (inv_init _ _ hle) hr
    rw [hval]
    exact brNumFromQ_spec hq1 hq2 (Nat.le_max_right _ _) hu32
  next hlt => exact absurd hr (by simp)

/-- C6 witness: the first trial of the scenario configuration. -/
theorem bitrateSearchRun_trial_values_witness :
    (⟨1, 550, 500⟩ : CallRec ℕ) ∈
        (bitrateSearchRun 95 80 100 1000 100 false accOracle 10).2 ∧
      (max 100 1 ∣ (500 : ℕ) ∧ 500 ≤ 1000 ∧ 100 < 500 + max 100 1) :=
  ⟨by decide,
    bitrateSearchRun_trial_values 95 80 100 1000 100 false accOracle 10
      ⟨1, 550, 500⟩ (by norm_num) (by decide)⟩

/-- C6 counterexample: with `min_br = 150` and increment 100, the loop's
`set_q(min_q)` re-derives the trial value `100 < 150`: the second oracle
call is made with a value outside `[min_value, max_value]`. -/
theorem bitrateSearchRun_trial_values_cx :
    (⟨2, 150, 100⟩ : CallRec ℕ) ∈
        (bitrateSearchRun 95 80 150 250 100 false errOracle 10).2 ∧
      ¬(150 ≤ (100 : ℕ)) :=
  ⟨by decide, by omega⟩

/-! Claim C8: oracle errors abort the search immediately. -/

/-- C8: if the oracle call of some reached iteration fails, that failure
is the result of `run`; no oracle call with a later iteration index is
made, and the failing call itself is issued exactly once (no retry). -/
theorem bitrateSearchRun_err_aborts (minVmaf maxPct : ℚ)
    (minBr maxBr inc0 : ℕ) (th : Bool) (oracle : ℕ → Option EncOutput)
    (fuel : ℕ) (r : CallRec ℕ)
    (hr : r ∈ (bitrateSearchRun minVmaf maxPct minBr maxBr inc0 th oracle fuel).2)
    (herr : oracle r.idx = none) :
    (bitrateSearchRun minVmaf maxPct minBr maxBr inc0 th oracle fuel).1 =
        .oracleErr ∧
      ∀ r' ∈ (bitrateSearchRun minVmaf maxPct minBr maxBr inc0 th oracle fuel).2,
        r'.idx ≤ r.idx ∧ (r'.idx = r.idx → r' = r) := by
  simp only [bitrateSearchRun] at hr ⊢
  split at hr
  next hlt =>
    rw [if_pos hlt]
    exact searchRun_err_aborts fuel _ r hr herr
  next hlt => exact absurd hr (by simp)

/-- C8 witness: the oracle errors at its second call. -/
theorem bitrateSearchRun_err_aborts_witness :
    errOracle 2 = none ∧
      (⟨2, 150, 100⟩ : CallRec ℕ) ∈
        (bitrateSearchRun 95 80 150 250 100 false errOracle 10).2 ∧
      ((bitrateSearchRun 95 80 150 250 100 false errOracle 10).1 = .oracleErr ∧
        ∀ r' ∈ (bitrateSearchRun 95 80 150 250 100 false errOracle 10).2,
          r'.idx ≤ (⟨2, 150, 100⟩ : CallRec ℕ).idx ∧
            (r'.idx = (⟨2, 150, 100⟩ : CallRec ℕ).idx →
              r' = (⟨2, 150, 100⟩ : CallRec ℕ))) :=
  ⟨by decide, by decide,
    bitrateSearchRun_err_aborts 95 80 150 250 100 false errOracle 10
      ⟨2, 150, 100⟩ (by decide) (by decide)⟩

/-! Claim C2: termination of the search loop. -/

/-- C2 (amended): with validated bounds the loop never runs unbounded —
within `max_q - min_q + 4` iterations it reaches a terminal outcome
(success, classified failure, propagated oracle error, or a panic in the
interpolation clamp) for EVERY oracle response sequence.  The bound is
linear in the coordinate range, not `log2((max_q-min_q)/increment)` as
claimed: interpolation narrows the bracket by as little as one `q` unit
per iteration and is independent of the increment — see the
counterexample. -/
theorem bitrateSearchRun_terminates (minVmaf maxPct : ℚ)
    (minBr maxBr inc0 : ℕ) (th : Bool) (oracle : ℕ → Option EncOutput)
    (hlt : minBr < maxBr) :
    (bitrateSearchRun minVmaf maxPct minBr maxBr inc0 th oracle
        (maxBr - minBr + 4)).1 ≠ .fuelOut := by
  simp only [bitrateSearchRun]
  rw [if_pos hlt]
  have hle : ((minBr : ℚ)) ≤ ((maxBr : ℚ)) := by
    exact_mod_cast Nat.le_of_lt hlt
  refine searchRun_no_fuelOut (maxBr - minBr + 4) (maxBr - minBr + 2) _
    (inv_init _ _ hle) (pinv_init _ _ hle) ?_ (by omega)
  have h1 : maxBadQ
      { minVmaf := minVmaf, maxEncodedPercent := maxPct, minQ := (minBr : ℚ),
        maxQ := (maxBr : ℚ), inc := ((max inc0 1 : ℕ) : ℚ), thorough := th }
      ([] : List (Attempt ℕ)) = (minBr : ℚ) - 1 := rfl
  have h2 : minGoodQ
      { minVmaf := minVmaf, maxEncodedPercent := maxPct, minQ := (minBr : ℚ),
        maxQ := (maxBr : ℚ), inc := ((max inc0 1 : ℕ) : ℚ), thorough := th }
      ([] : List (Attempt ℕ)) = (maxBr : ℚ) + 1 := rfl
  simp only [width, brSampleNew, initState, h1, h2]
  have hcast : (maxBr : ℚ) + 1 - ((minBr : ℚ) - 1) =
      ((maxBr - minBr + 2 : ℕ) : ℚ) := by
    push_cast [Nat.cast_sub (Nat.le_of_lt hlt)]
    ring
  rw [hcast, Int.ceil_natCast]
  simp

/-- C2 witness: a small validated configuration; the fuel bound
`200 - 100 + 4` suffices for every oracle, in particular the accepting
one. -/
theorem bitrateSearchRun_terminates_witness :
    (bitrateSearchRun 95 80 100 200 100 false accOracle
        (200 - 100 + 4)).1 ≠ .fuelOut :=
  bitrateSearchRun_terminates 95 80 100 200 100 false accOracle (by norm_num)

/-- C2 counterexample: with range `[0, 100]` and increment 50 the claimed
bound is `log2((max_q-min_q)/increment) = log2 2 = 1` plus a small
constant, yet an adversarial oracle (vmaf pinned to the target so that
interpolation always returns the worse coordinate, clamped up by one unit)
forces 51 oracle calls before the loop terminates. -/
theorem bitrateSearchRun_terminates_cx :
    (bitrateSearchRun 95 80 0 100 50 false advOracle 60).2.length = 51 ∧
      (100 - 0) / 50 = 2 ^ 1 ∧ 1 + 40 < 51 := by
  refine ⟨by decide, by norm_num, by norm_num⟩

/-! Claim C3: interpolation bracket invariant. -/

/-- C3 (amended): for a (worse, better) pair with
`worse.vmaf <= min_vmaf < better.vmaf`, `worse.q < better.q` AND
`worse.q + 2 <= better.q`, `vmaf_lerp_q` returns the interpolated
coordinate clamped into `[worse.q + 1, better.q - 1]`; without the extra
gap hypothesis the clamp can panic (see the counterexample). -/
theorem vmafLerpQ_bracket (m wq wv bq bv : ℚ) (h1 : wv ≤ m) (h2 : m < bv)
    (h3 : wq < bq) (h4 : wq + 2 ≤ bq) :
    ∃ r, vmafLerpQ m wq wv bq bv = some r ∧ wq + 1 ≤ r ∧ r ≤ bq - 1 := by
  have hwb : wv < bv := lt_of_le_of_lt h1 h2
  unfold vmafLerpQ rustClamp
  rw [if_pos ⟨h1, hwb, h3⟩, if_pos (by linarith : wq + 1 ≤ bq - 1)]
  exact ⟨_, rfl, by split_ifs <;> linarith, by split_ifs <;> linarith⟩

/-- C3 witness: a concrete valid pair with gap 10. -/
theorem vmafLerpQ_bracket_witness :
    ∃ r, vmafLerpQ 95 0 90 10 96 = some r ∧ 0 + 1 ≤ r ∧ r ≤ 10 - 1 :=
  vmafLerpQ_bracket 95 0 90 10 96 (by norm_num) (by norm_num) (by norm_num)
    (by norm_num)

/-- C3 counterexample: with `worse.q = 0`, `better.q = 1` the claim's
precondition (`90 <= 95 < 96` and `0 < 1`) holds, yet the function
panics (the clamp gets `min = 1 > 0 = max`) and no value satisfying
`worse.q + 1 <= r <= better.q - 1` even exists. -/
theorem vmafLerpQ_bracket_cx :
    vmafLerpQ 95 0 90 1 96 = none ∧ ∀ r : ℚ, ¬(0 + 1 ≤ r ∧ r ≤ 1 - 1) :=
  ⟨by decide, fun r h => by obtain ⟨ha, hb⟩ := h; linarith⟩

/-! Claim C7: the assert in `vmaf_lerp_q`. -/

/-- C7 (amended): `vmaf_lerp_q` panics if and only if the asserted
condition `worse.vmaf <= min_vmaf AND worse.vmaf < better.vmaf AND
worse.q < better.q` fails — note `worse.vmaf < better.vmaf`, not the
spec's `min_vmaf < better.vmaf` — or the assert passes but the bracket
gap is below 2, in which case the `clamp` call itself panics. -/
theorem vmafLerpQ_panic_iff (m wq wv bq bv : ℚ) :
    vmafLerpQ m wq wv bq bv = none ↔
      ¬(wv ≤ m ∧ wv < bv ∧ wq < bq) ∨ bq < wq + 2 := by
  unfold vmafLerpQ rustClamp
  split_ifs with hc hcl
  · refine ⟨fun h => by simp at h, fun h => ?_⟩
    rcases h with h | h
    · exact absurd hc h
    · exact absurd hcl (by linarith)
  · exact iff_of_true rfl (Or.inr (by linarith [not_le.mp hcl]))
  · exact iff_of_true rfl (Or.inl hc)

/-- C7 counterexample: the pair `(worse.vmaf, min_vmaf, better.vmaf) =
(90, 95, 94)` violates the spec's precondition (`min_vmaf < better.vmaf`
fails), yet the code's assert passes and the call returns a value —
an invalid pair is silently coerced instead of panicking. -/
theorem vmafLerpQ_panic_cx :
    ¬((95 : ℚ) < 94) ∧ vmafLerpQ 95 0 90 10 94 = some 9 := by
  constructor
  · norm_num
  · decide

/-! Claim C4: initial coordinate and first trial of `Sample::new`. -/

/-- C4 (amended): with the Linear transform, bounds `[100, 1000]` and
increment 100, `Sample::new` computes the initial coordinate
`q = (100 + 1000) / 2 = 550` but the first trial value is `inverse(q)`
quantized DOWN by integer division, giving 500 — not 550. -/
theorem brSampleNew_initial :
    (brSampleNew 100 1000 100).q = 550 ∧ (brSampleNew 100 1000 100).val = 500 := by
  constructor
  · norm_num [brSampleNew, initState]
  · decide

/-- C4 counterexample: the first trial value is 500, not 550 as claimed. -/
theorem brSampleNew_initial_cx :
    (brSampleNew 100 1000 100).val = 500 ∧ (brSampleNew 100 1000 100).val ≠ 550 := by
  constructor <;> decide

/-! Claim C5: transform round trip. -/

/-- C5: for every transform variant and every value in its valid domain,
`inverse(forward(v)) = v` — exactly, in the real-number semantics of the
float computation, which in particular implies the claimed 1e-9 relative
tolerance. -/
theorem transform_roundTrip (t : Transform) (v : ℝ)
    (h : TransformValue.validDomain t v) :
    TransformValue.inverse t (TransformValue.calc t v) = v := by
  cases t with
  | Linear => rfl
  | Sqrt => exact Real.sqrt_sq h
  | Ln => exact Real.log_exp v

/-- C5 witness: the Sqrt transform at `v = 4`. -/
theorem transform_roundTrip_witness :
    TransformValue.validDomain .Sqrt 4 ∧
      TransformValue.inverse .Sqrt (TransformValue.calc .Sqrt 4) = 4 :=
  ⟨by exact (by norm_num : (0 : ℝ) ≤ 4),
    transform_roundTrip .Sqrt 4 (by exact (by norm_num : (0 : ℝ) ≤ 4))⟩

/-! Claim C10: the progress estimate stays within the bar. -/

/-- C10: for every `run >= 1`, `sample_progress` in `[0, 1]` and either
thorough flag, `guess_progress` lies in `[0, BAR_LEN]`. -/
theorem guessProgress_le_barLen (run : ℕ) (sp : ℚ) (th : Bool)
    (h1 : 1 ≤ run) (h2 : 0 ≤ sp) (h3 : sp ≤ 1) :
    0 ≤ guessProgress run sp th ∧ guessProgress run sp th ≤ BAR_LEN := by
  have hr1 : (1 : ℚ) ≤ (run : ℚ) := by exact_mod_cast h1
  have hN : 0 ≤ (run : ℚ) - 1 + sp := by linarith
  unfold guessProgress BAR_LEN
  split_ifs with hA hB
  · have h6 : (run : ℚ) ≤ 6 := by exact_mod_cast Nat.le_of_lt_succ hA.2
    constructor
    · positivity
    · rw [div_le_iff₀ (by norm_num : (0 : ℚ) < 6)]
      nlinarith
  · have h4 : (run : ℚ) ≤ 4 := by exact_mod_cast Nat.le_of_lt_succ hB
    constructor
    · positivity
    · rw [div_le_iff₀ (by norm_num : (0 : ℚ) < 4)]
      nlinarith
  · have h5 : (5 : ℚ) ≤ (run : ℚ) := by
      exact_mod_cast le_of_not_lt (fun h => hB h)
    have hrpos : (0 : ℚ) < (run : ℚ) := by linarith
    constructor
    · positivity
    · rw [div_le_iff₀ hrpos]
      nlinarith

/-- C10 witness: `run = 3`, `sample_progress = 1/2`, thorough mode. -/
theorem guessProgress_le_barLen_witness :
    0 ≤ guessProgress 3 (1 / 2) true ∧ guessProgress 3 (1 / 2) true ≤ BAR_LEN :=
  guessProgress_le_barLen 3 (1 / 2) true (by norm_num) (by norm_num) (by norm_num)

/-! Claim C9: the two trial-value derivations. -/

/-- C9 (amended): the two `num_from_q` derivations agree whenever the
inverse-transformed coordinate is an exact multiple of the increment, but
in general they differ: the bitrate one floor-quantizes via integer
division while the cq one rounds to the nearest multiple. -/
theorem numFromQ_agree_on_multiples (inc k : ℕ) (hinc : 1 ≤ inc)
    (hk32 : k * inc ≤ 2 ^ 32 - 1) :
    ((brNumFromQ (fun v => v) ((k * inc : ℕ) : ℚ) inc : ℕ) : ℚ) =
      cqNumFromQ (fun v => v) ((k * inc : ℕ) : ℚ) inc := by
  have hincQ : ((inc : ℚ)) ≠ 0 := by positivity
  have hbr : brNumFromQ (fun v => v) ((k * inc : ℕ) : ℚ) inc = k * inc := by
    unfold brNumFromQ ratAsU32
    simp only [Int.floor_natCast, Int.toNat_natCast]
    rw [min_eq_left hk32, Nat.mul_div_cancel _ (by omega : 0 < inc)]
  have hdiv : ((k * inc : ℕ) : ℚ) / (inc : ℚ) = (k : ℚ) := by
    push_cast
    field_simp
  have hround : rustRound ((k : ℚ)) = k := by
    unfold rustRound
    rw [if_pos (by positivity)]
    have h : ((k : ℚ)) + 1 / 2 = ((k : ℤ) : ℚ) + (1 / 2 : ℚ) := by push_cast; ring
    rw [h, Int.floor_int_add]
    norm_num
  unfold cqNumFromQ
  simp only []
  rw [hbr]
  show ((k * inc : ℕ) : ℚ) = (rustRound (((k * inc : ℕ) : ℚ) / (inc : ℚ)) : ℚ) * (inc : ℚ)
  rw [hdiv, hround]
  push_cast
  ring

/-- C9 witness: both derivations give 600 at `q = 600`, increment 100. -/
theorem numFromQ_agree_witness :
    ((brNumFromQ (fun v => v) ((6 * 100 : ℕ) : ℚ) 100 : ℕ) : ℚ) =
      cqNumFromQ (fun v => v) ((6 * 100 : ℕ) : ℚ) 100 :=
  numFromQ_agree_on_multiples 100 6 (by norm_num) (by norm_num)

/-- C9 counterexample: at coordinate 550 with increment 100 and the same
(Linear) transform, the bitrate derivation gives 500 (floor) while the
cq derivation gives 600 (round half away from zero) — the two searches do
not compute the same quantized trial value modulo transform and numeric
type. -/
theorem numFromQ_differ_cx :
    brNumFromQ (fun v => v) 550 100 = 500 ∧
      cqNumFromQ (fun v => v) 550 100 = 600 ∧ ((500 : ℚ) ≠ 600) := by
  refine ⟨by decide, ?_, by norm_num⟩
  decide

end AbAv1
